import Mathlib

/- Verification development for the Grover-comparator program
   (`grover_comparator.py`).  The Python class `GroverComparator` is shallowly
   embedded below: its constructor and public method become pure Lean
   functions, the qiskit circuit becomes an explicit instruction list, and the
   quantum-state simulation the circuit denotes is embedded as exact linear
   operators over the ring ℚ[√2] (all amplitudes arising in this program are
   real elements of that ring). -/

/-- Fuel-driven helper for the binary bit length of a natural number
(Python `int.bit_length`): `0` maps to `0`, a positive `x` to
`bitLen (x / 2) + 1`.  The first argument is fuel, consumed once per
halving, so `bitLenAux f x` is the true bit length whenever `x ≤ f`. -/
def bitLenAux : ℕ → ℕ → ℕ
  | _, 0 => 0
  | 0, _ + 1 => 0
  | f + 1, x + 1 => bitLenAux f ((x + 1) / 2) + 1

/-- Binary bit length of a natural number, as Python `int.bit_length`. -/
def bitLen (x : ℕ) : ℕ := bitLenAux x x

theorem bitLenAux_zero (f : ℕ) : bitLenAux f 0 = 0 := by
  cases f <;> rfl

theorem bitLenAux_fuel (x : ℕ) : ∀ f g, x ≤ f → x ≤ g →
    bitLenAux f x = bitLenAux g x := by
  induction x using Nat.strong_induction_on with
  | _ x ih =>
    intro f g hf hg
    cases x with
    | zero => rw [bitLenAux_zero, bitLenAux_zero]
    | succ y =>
      cases f with
      | zero => omega
      | succ f' =>
        cases g with
        | zero => omega
        | succ g' =>
          show bitLenAux f' ((y + 1) / 2) + 1 = bitLenAux g' ((y + 1) / 2) + 1
          rw [ih ((y + 1) / 2) (by omega) f' g' (by omega) (by omega)]

theorem bitLen_zero : bitLen 0 = 0 := rfl

theorem bitLen_pos_step (x : ℕ) (hx : x ≠ 0) : bitLen x = bitLen (x / 2) + 1 := by
  cases x with
  | zero => exact absurd rfl hx
  | succ y =>
    show bitLenAux y ((y + 1) / 2) + 1 = bitLenAux ((y + 1) / 2) ((y + 1) / 2) + 1
    rw [bitLenAux_fuel ((y + 1) / 2) y ((y + 1) / 2) (by omega) (by omega)]

theorem lt_two_pow_bitLen (x : ℕ) : x < 2 ^ bitLen x := by
  induction x using Nat.strong_induction_on with
  | _ x ih =>
    cases Nat.eq_zero_or_pos x with
    | inl h0 => subst h0; simp [bitLen_zero]
    | inr hpos =>
      rw [bitLen_pos_step x (Nat.pos_iff_ne_zero.mp hpos), pow_succ]
      have h2 : x / 2 < 2 ^ bitLen (x / 2) := ih (x / 2) (by omega)
      omega

theorem bitLen_two_pow (k : ℕ) : bitLen (2 ^ k) = k + 1 := by
  induction k with
  | zero => rfl
  | succ m ihm =>
    rw [bitLen_pos_step (2 ^ (m + 1)) (by positivity)]
    have hdiv : 2 ^ (m + 1) / 2 = 2 ^ m := by
      rw [pow_succ, Nat.mul_div_cancel _ (by norm_num)]
    rw [hdiv, ihm]

/-- Shallow embedding of the instructions that `check_larger_or_equal` appends
to the qiskit circuit `self.qc`: a Hadamard gate on one qubit, the oracle
instruction returned by `create_comparison_oracle` (tagged with the marked
index it flips), the diffuser instruction from `create_diffuser`, and the
final `measure_all`. -/
inductive Instr where
  | h (q : ℕ)
  | oracle (marked : ℕ)
  | diffuser
  | measureAll
deriving DecidableEq

/-- Shallow embedding of the state set up by `GroverComparator.__init__`:
the two input integers, `diff = number_1 - number_2`,
`nqubits = max(abs(diff).bit_length(), 2)`, `nstates = 2 ** nqubits`, and the
mutable circuit `qc` (initially the empty instruction list). -/
structure GroverComparator where
  number_1 : ℤ
  number_2 : ℤ
  diff : ℤ
  nqubits : ℕ
  nstates : ℕ
  qc : List Instr
deriving DecidableEq

namespace GroverComparator

/-- Embedding of `GroverComparator.__init__(number_1, number_2)`. -/
def init (a b : ℤ) : GroverComparator :=
  { number_1 := a
    number_2 := b
    diff := a - b
    nqubits := max (bitLen (a - b).natAbs) 2
    nstates := 2 ^ max (bitLen (a - b).natAbs) 2
    qc := [] }

/-- The basis index the oracle marks: `i = abs(self.diff)` in
`create_comparison_oracle`. -/
def markedIndex (g : GroverComparator) : ℕ := g.diff.natAbs

/-- Embedding of `niterations = int(np.floor(np.pi / 4 * np.sqrt(self.nstates)))`
from `check_larger_or_equal` (the float computation is modelled over ℝ). -/
noncomputable def niterations (g : GroverComparator) : ℕ :=
  ⌊Real.pi / 4 * Real.sqrt (g.nstates : ℝ)⌋₊

/-- The instruction sequence one call to `check_larger_or_equal` appends to
`self.qc`: `h` on every qubit, then `niterations` copies of oracle-then-
diffuser, then `measure_all`. -/
noncomputable def algSegment (g : GroverComparator) : List Instr :=
  (List.range g.nqubits).map Instr.h
    ++ (List.replicate g.niterations [Instr.oracle g.markedIndex, Instr.diffuser]).flatten
    ++ [Instr.measureAll]

end GroverComparator

/-- One step of the most-likely-outcome loop in `check_larger_or_equal`:
state `(max_key, max_value)` starts at `(None, -inf)` (the `-inf` is modelled
as `none`, which every value strictly exceeds), and a pair strictly greater
than the current maximum replaces it. -/
def findMaxStep (acc : Option ℕ × Option ℚ) (kv : ℕ × ℚ) : Option ℕ × Option ℚ :=
  match acc.2 with
  | none => (some kv.1, some kv.2)
  | some mv => if mv < kv.2 then (some kv.1, some kv.2) else acc

/-- The `max_key` computed by the loop over `counts.items()` in
`check_larger_or_equal`. -/
def findMaxKey (counts : List (ℕ × ℚ)) : Option ℕ :=
  (counts.foldl findMaxStep (none, none)).1

namespace GroverComparator

/-- Embedding of `check_larger_or_equal`.  The sampler's quasi-distribution
(which in the program depends on the simulator and its seed) is passed in as
`counts`; the method appends the full algorithm to `self.qc`, computes
`max_key` from `counts` (a value the source never consults again), and
returns `self.diff >= 0`. -/
noncomputable def check_larger_or_equal (g : GroverComparator)
    (counts : List (ℕ × ℚ)) : GroverComparator × Bool :=
  let g' : GroverComparator := { g with qc := g.qc ++ g.algSegment }
  let _max_key := findMaxKey counts
  (g', decide (g.diff ≥ 0))

end GroverComparator

/-- Embedding of the oracle matrix built in `create_comparison_oracle`:
`np.eye(2 ** nqubits)` with entry `[i][i]` overwritten by `-1`, where
`i = abs(self.diff)` is the marked index. -/
def gate_matrix (n : ℕ) (i : Fin (2 ^ n)) : Matrix (Fin (2 ^ n)) (Fin (2 ^ n)) ℚ :=
  Matrix.of fun r c => if r = i ∧ c = i then -1 else if r = c then 1 else 0

/-- Elements of the ring ℚ[√2], written `ra + rb·√2`: the exact scalar field
used to simulate the circuit (every amplitude this program produces is real
and lies in ℚ[√2], since the only irrational gate entry is 1/√2 = √2/2). -/
structure Qrt2 where
  ra : ℚ
  rb : ℚ
deriving DecidableEq

namespace Qrt2

def add (p q : Qrt2) : Qrt2 := ⟨p.ra + q.ra, p.rb + q.rb⟩

def neg (p : Qrt2) : Qrt2 := ⟨-p.ra, -p.rb⟩

def mul (p q : Qrt2) : Qrt2 :=
  ⟨p.ra * q.ra + 2 * p.rb * q.rb, p.ra * q.rb + p.rb * q.ra⟩

instance : Zero Qrt2 := ⟨⟨0, 0⟩⟩

instance : One Qrt2 := ⟨⟨1, 0⟩⟩

instance : Add Qrt2 := ⟨add⟩

instance : Neg Qrt2 := ⟨neg⟩

instance : Mul Qrt2 := ⟨mul⟩

theorem add_def (p q : Qrt2) : p + q = ⟨p.ra + q.ra, p.rb + q.rb⟩ := rfl

theorem neg_def (p : Qrt2) : -p = ⟨-p.ra, -p.rb⟩ := rfl

theorem mul_def (p q : Qrt2) :
    p * q = ⟨p.ra * q.ra + 2 * p.rb * q.rb, p.ra * q.rb + p.rb * q.ra⟩ := rfl

theorem zero_def : (0 : Qrt2) = ⟨0, 0⟩ := rfl

theorem one_def : (1 : Qrt2) = ⟨1, 0⟩ := rfl

theorem mk_eq_iff (a b c d : ℚ) :
    (⟨a, b⟩ : Qrt2) = ⟨c, d⟩ ↔ a = c ∧ b = d := by
  constructor
  · intro h
    exact ⟨congrArg ra h, congrArg rb h⟩
  · rintro ⟨rfl, rfl⟩
    rfl

theorem add_assoc' (p q r : Qrt2) : p + q + r = p + (q + r) := by
  cases p; cases q; cases r
  simp only [add_def, mk_eq_iff]
  constructor <;> ring

theorem zero_add' (p : Qrt2) : 0 + p = p := by
  cases p
  simp only [zero_def, add_def, mk_eq_iff]
  constructor <;> ring

theorem add_zero' (p : Qrt2) : p + 0 = p := by
  cases p
  simp only [zero_def, add_def, mk_eq_iff]
  constructor <;> ring

theorem add_comm' (p q : Qrt2) : p + q = q + p := by
  cases p; cases q
  simp only [add_def, mk_eq_iff]
  constructor <;> ring

theorem neg_add_cancel' (p : Qrt2) : -p + p = 0 := by
  cases p
  simp only [zero_def, add_def, neg_def, mk_eq_iff]
  constructor <;> ring

theorem mul_assoc' (p q r : Qrt2) : p * q * r = p * (q * r) := by
  cases p; cases q; cases r
  simp only [mul_def, mk_eq_iff]
  constructor <;> ring

theorem one_mul' (p : Qrt2) : 1 * p = p := by
  cases p
  simp only [one_def, mul_def, mk_eq_iff]
  constructor <;> ring

theorem mul_one' (p : Qrt2) : p * 1 = p := by
  cases p
  simp only [one_def, mul_def, mk_eq_iff]
  constructor <;> ring

theorem left_distrib' (p q r : Qrt2) : p * (q + r) = p * q + p * r := by
  cases p; cases q; cases r
  simp only [add_def, mul_def, mk_eq_iff]
  constructor <;> ring

theorem right_distrib' (p q r : Qrt2) : (p + q) * r = p * r + q * r := by
  cases p; cases q; cases r
  simp only [add_def, mul_def, mk_eq_iff]
  constructor <;> ring

theorem mul_comm' (p q : Qrt2) : p * q = q * p := by
  cases p; cases q
  simp only [mul_def, mk_eq_iff]
  constructor <;> ring

theorem zero_mul' (p : Qrt2) : 0 * p = 0 := by
  cases p
  simp only [zero_def, mul_def, mk_eq_iff]
  constructor <;> ring

theorem mul_zero' (p : Qrt2) : p * 0 = 0 := by
  cases p
  simp only [zero_def, mul_def, mk_eq_iff]
  constructor <;> ring

instance : CommRing Qrt2 where
  add_assoc := add_assoc'
  zero_add := zero_add'
  add_zero := add_zero'
  add_comm := add_comm'
  neg_add_cancel := neg_add_cancel'
  mul_assoc := mul_assoc'
  one_mul := one_mul'
  mul_one := mul_one'
  left_distrib := left_distrib'
  right_distrib := right_distrib'
  mul_comm := mul_comm'
  zero_mul := zero_mul'
  mul_zero := mul_zero'
  nsmul := nsmulRec
  zsmul := zsmulRec


/-- Inclusion of ℚ into ℚ[√2]. -/
def ofRat (q : ℚ) : Qrt2 := ⟨q, 0⟩

theorem ofRat_mul (p q : ℚ) : ofRat p * ofRat q = ofRat (p * q) := by
  simp only [ofRat, mul_def, mk_eq_iff]
  constructor <;> ring

theorem ofRat_one : ofRat 1 = 1 := rfl

end Qrt2

/-- The Hadamard-gate coefficient 1/√2 = √2/2 as an element of ℚ[√2]. -/
def hcoef : Qrt2 := ⟨0, 1 / 2⟩

theorem hcoef_mul_self : hcoef * hcoef = Qrt2.ofRat (1 / 2) := by
  simp only [hcoef, Qrt2.mul_def, Qrt2.ofRat, Qrt2.mk_eq_iff]
  norm_num

theorem hcoef_sq_two : hcoef * hcoef + hcoef * hcoef = 1 := by
  rw [hcoef_mul_self]
  simp only [Qrt2.ofRat, Qrt2.add_def, Qrt2.one_def, Qrt2.mk_eq_iff]
  norm_num

theorem hcoef_pow_mul (n : ℕ) :
    hcoef ^ n * hcoef ^ n = Qrt2.ofRat ((1 / 2) ^ n) := by
  induction n with
  | zero => simp [Qrt2.ofRat_one]
  | succ m ihm =>
    calc hcoef ^ (m + 1) * hcoef ^ (m + 1)
        = (hcoef ^ m * hcoef ^ m) * (hcoef * hcoef) := by ring
      _ = Qrt2.ofRat ((1 / 2) ^ m) * Qrt2.ofRat (1 / 2) := by rw [ihm, hcoef_mul_self]
      _ = Qrt2.ofRat ((1 / 2) ^ (m + 1)) := by rw [Qrt2.ofRat_mul, pow_succ]

/-- A basis state of an `n`-qubit register, given by the bits of its index:
qubit `k` holds bit `k` of the index (qiskit's little-endian convention). -/
abbrev Bvec (n : ℕ) := Fin n → Bool

/-- Amplitude vector of an `n`-qubit register, with exact ℚ[√2] entries. -/
abbrev QState (n : ℕ) := Bvec n → Qrt2

/-- The all-zero bit string, the index of the computational ground state. -/
def bZero (n : ℕ) : Bvec n := fun _ => false

/-- Amplitude vector of the ground state `|0...0>` a fresh qiskit circuit
starts from. -/
def ground (n : ℕ) : QState n := fun x => if x = bZero n then 1 else 0

/-- Semantics of `qc.h(k)`: the single-qubit Hadamard gate on qubit `k`,
sending the amplitude pair `(a, b)` over bit `k` to `((a+b)/√2, (a-b)/√2)`. -/
def hGate (n : ℕ) (k : Fin n) (v : QState n) : QState n := fun x =>
  hcoef * (v (Function.update x k false)
    + (if x k then -1 else 1) * v (Function.update x k true))

/-- Semantics of `qc.x(k)`: the bit-flip gate on qubit `k`. -/
def xGate (n : ℕ) (k : Fin n) (v : QState n) : QState n := fun x =>
  v (Function.update x k (!(x k)))

/-- Semantics of `qc.mcx(list(range(nqubits - 1)), nqubits - 1)` with target
`t`: flip the target bit exactly when every other bit is set (for `t` the
last qubit the control set `{j | j ≠ t}` is precisely `range(nqubits - 1)`). -/
def mcxGate (n : ℕ) (t : Fin n) (v : QState n) : QState n := fun x =>
  if ∀ j, j ≠ t → x j = true then v (Function.update x t (!(x t))) else v x

/-- Apply single-qubit Hadamards to the listed qubits, first qubit first
(`qc.h(range(n))` loops over the qubits in increasing order). -/
def hList (n : ℕ) (l : List (Fin n)) (v : QState n) : QState n :=
  l.foldl (fun w k => hGate n k w) v

/-- The Hadamard layer `qc.h(range(nqubits))`. -/
def hAll (n : ℕ) (v : QState n) : QState n := hList n (List.finRange n) v

/-- Apply bit flips to the listed qubits in order. -/
def xList (n : ℕ) (l : List (Fin n)) (v : QState n) : QState n :=
  l.foldl (fun w k => xGate n k w) v

/-- The bit-flip layer `qc.x(range(nqubits))`. -/
def xAll (n : ℕ) (v : QState n) : QState n := xList n (List.finRange n) v

/-- The gate-sequence diffuser of `create_diffuser`, with target qubit `t`
(`nqubits - 1` in the source; the barriers are no-ops and omitted): H on all
qubits, X on all qubits, H on `t`, MCX onto `t`, H on `t`, X on all qubits,
H on all qubits — innermost first, matching circuit order. -/
def diffuserGate (n : ℕ) (t : Fin n) (v : QState n) : QState n :=
  hAll n (xAll n (hGate n t (mcxGate n t (hGate n t (xAll n (hAll n v))))))

/-- Action of the oracle unitary of `create_comparison_oracle` on a state
vector: the diagonal sign flip at the marked basis state `m`. -/
def oracleFlip (n : ℕ) (m : Bvec n) (v : QState n) : QState n := fun x =>
  if x = m then -v x else v x

/-- The mean amplitude `(∑ v) / 2^n` of a state vector. -/
def meanAmp (n : ℕ) (v : QState n) : Qrt2 :=
  Qrt2.ofRat ((1 : ℚ) / 2 ^ n) * ∑ x : Bvec n, v x

/-- Modelled from the spec: the closed-form diffusion reflection
`2|s><s| - I`, i.e. `v[i] <- 2*mean(v) - v[i]` (reflect every amplitude
about the mean amplitude).  This is the spec-side description the
gate-sequence diffuser is compared against. -/
def reflectAboutMean (n : ℕ) (v : QState n) : QState n := fun x =>
  2 * meanAmp n v - v x

/-- Sum of the squared amplitudes of a state vector (every amplitude in this
program is real, so the squared magnitude of `a` is `a * a`). -/
def norm2 (n : ℕ) (v : QState n) : Qrt2 := ∑ x : Bvec n, v x * v x

theorem hGate_invol (n : ℕ) (k : Fin n) (v : QState n) :
    hGate n k (hGate n k v) = v := by
  funext x
  cases hx : x k with
  | false =>
    have hx0 : Function.update x k false = x := by
      conv_lhs => rw [← hx]
      exact Function.update_eq_self k x
    simp only [hGate, Function.update_idem, Function.update_same, hx0, hx,
      Bool.false_eq_true, eq_self_iff_true, if_true, if_false]
    linear_combination (v x) * hcoef_sq_two
  | true =>
    have hx1 : Function.update x k true = x := by
      conv_lhs => rw [← hx]
      exact Function.update_eq_self k x
    simp only [hGate, Function.update_idem, Function.update_same, hx1, hx,
      Bool.false_eq_true, eq_self_iff_true, if_true, if_false]
    linear_combination (v x) * hcoef_sq_two

theorem hGate_comm (n : ℕ) (j k : Fin n) (v : QState n) :
    hGate n j (hGate n k v) = hGate n k (hGate n j v) := by
  rcases eq_or_ne j k with rfl | hjk
  · rfl
  · funext x
    simp only [hGate, Function.update_noteq hjk, Function.update_noteq hjk.symm,
      Function.update_comm hjk]
    ring

theorem hList_nil (n : ℕ) (v : QState n) : hList n [] v = v := rfl

theorem hList_cons (n : ℕ) (k : Fin n) (l : List (Fin n)) (v : QState n) :
    hList n (k :: l) v = hList n l (hGate n k v) := rfl

theorem hList_append (n : ℕ) (l₁ l₂ : List (Fin n)) (v : QState n) :
    hList n (l₁ ++ l₂) v = hList n l₂ (hList n l₁ v) := by
  simp only [hList, List.foldl_append]

theorem hGate_hList_comm (n : ℕ) (k : Fin n) (l : List (Fin n)) (v : QState n) :
    hGate n k (hList n l v) = hList n l (hGate n k v) := by
  induction l generalizing v with
  | nil => rfl
  | cons a l ih =>
    simp only [hList_cons]
    rw [ih (hGate n a v), hGate_comm n k a]

theorem hList_reverse (n : ℕ) (l : List (Fin n)) (v : QState n) :
    hList n l.reverse v = hList n l v := by
  induction l generalizing v with
  | nil => rfl
  | cons a l ih =>
    rw [List.reverse_cons, hList_append, hList_cons, hList_nil, ih,
      hList_cons, hGate_hList_comm]

theorem hList_cancel (n : ℕ) (l : List (Fin n)) (v : QState n) :
    hList n l (hList n l.reverse v) = v := by
  induction l generalizing v with
  | nil => rfl
  | cons a l ih =>
    rw [List.reverse_cons, hList_append]
    simp only [hList_cons, hList_nil]
    rw [hGate_invol, ih]

theorem hAll_hAll (n : ℕ) (v : QState n) : hAll n (hAll n v) = v := by
  show hList n (List.finRange n) (hList n (List.finRange n) v) = v
  rw [← hList_reverse n (List.finRange n) v, hList_cancel]

theorem hGate_lin (n : ℕ) (k : Fin n) (a : Qrt2) (u w : QState n) :
    hGate n k (fun y => u y - a * w y)
      = fun y => hGate n k u y - a * hGate n k w y := by
  funext x
  simp only [hGate]
  ring

theorem hList_lin (n : ℕ) (l : List (Fin n)) (a : Qrt2) (u w : QState n) :
    hList n l (fun y => u y - a * w y)
      = fun y => hList n l u y - a * hList n l w y := by
  induction l generalizing u w with
  | nil => rfl
  | cons b l ih =>
    simp only [hList_cons, hGate_lin]
    exact ih (hGate n b u) (hGate n b w)

theorem sum_pair (n : ℕ) (k : Fin n) (f : Bvec n → Qrt2) :
    ∑ x : Bvec n, f x
      = ∑ x : Bvec n,
          (if x k = false then f x + f (Function.update x k true) else 0) := by
  classical
  rw [← Finset.sum_filter_add_sum_filter_not Finset.univ
    (fun x : Bvec n => x k = false) f]
  have hswap : ∑ x ∈ Finset.univ.filter (fun x : Bvec n => ¬ x k = false), f x
      = ∑ x ∈ Finset.univ.filter (fun x : Bvec n => x k = false),
          f (Function.update x k true) := by
    refine Finset.sum_nbij' (fun x => Function.update x k false)
      (fun x => Function.update x k true) ?_ ?_ ?_ ?_ ?_
    · intro a _
      simp [Function.update_same]
    · intro a ha
      simp only [Finset.mem_filter, Finset.mem_univ, true_and] at ha ⊢
      simp [Function.update_same]
    · intro a ha
      simp only [Finset.mem_filter, Finset.mem_univ, true_and] at ha
      show Function.update (Function.update a k false) k true = a
      rw [Function.update_idem]
      have hak : a k = true := by revert ha; cases a k <;> simp
      rw [← hak]
      exact Function.update_eq_self k a
    · intro a ha
      simp only [Finset.mem_filter, Finset.mem_univ, true_and] at ha
      show Function.update (Function.update a k true) k false = a
      rw [Function.update_idem, ← ha]
      exact Function.update_eq_self k a
    · intro a ha
      simp only [Finset.mem_filter, Finset.mem_univ, true_and] at ha
      show f a = f (Function.update (Function.update a k false) k true)
      rw [Function.update_idem]
      have hak : a k = true := by revert ha; cases a k <;> simp
      rw [← hak, Function.update_eq_self k a]
  rw [hswap, ← Finset.sum_add_distrib, Finset.sum_filter]

/-- The bilinear pairing `∑ u·w` on real state vectors. -/
def dotQ (n : ℕ) (u w : QState n) : Qrt2 := ∑ x : Bvec n, u x * w x

theorem hGate_adj (n : ℕ) (k : Fin n) (u w : QState n) :
    dotQ n (hGate n k u) w = dotQ n u (hGate n k w) := by
  unfold dotQ
  rw [sum_pair n k (fun x => hGate n k u x * w x),
    sum_pair n k (fun x => u x * hGate n k w x)]
  apply Finset.sum_congr rfl
  intro x _
  by_cases hx : x k = false
  · rw [if_pos hx, if_pos hx]
    have hx0 : Function.update x k false = x := by
      conv_lhs => rw [← hx]
      exact Function.update_eq_self k x
    simp only [hGate, Function.update_idem, Function.update_same, hx0, hx,
      Bool.false_eq_true, eq_self_iff_true, if_true, if_false]
    ring
  · rw [if_neg hx, if_neg hx]

theorem hList_adj (n : ℕ) (l : List (Fin n)) (u w : QState n) :
    dotQ n (hList n l u) w = dotQ n u (hList n l.reverse w) := by
  induction l generalizing u w with
  | nil => rfl
  | cons a l ih =>
    rw [hList_cons, ih (hGate n a u) w, hGate_adj, List.reverse_cons, hList_append]
    simp only [hList_cons, hList_nil]

theorem hAll_adj (n : ℕ) (u w : QState n) :
    dotQ n (hAll n u) w = dotQ n u (hAll n w) := by
  show dotQ n (hList n (List.finRange n) u) w = _
  rw [hList_adj, hList_reverse]
  rfl

/-- Intermediate states of the Hadamard layer acting on the ground state:
after the qubits in `S` have received their Hadamard, the amplitude is
`hcoef ^ |S|` on every basis state supported inside `S` and `0` elsewhere. -/
def groundInd (n : ℕ) (S : Finset (Fin n)) : QState n := fun x =>
  if ∀ j ∉ S, x j = false then hcoef ^ S.card else 0

theorem hGate_groundInd (n : ℕ) (k : Fin n) (S : Finset (Fin n)) (hk : k ∉ S) :
    hGate n k (groundInd n S) = groundInd n (insert k S) := by
  funext x
  have hA : ¬ (∀ j ∉ S, Function.update x k true j = false) := by
    intro hall
    have := hall k hk
    simp [Function.update_same] at this
  have hB : (∀ j ∉ S, Function.update x k false j = false) ↔
      (∀ j ∉ insert k S, x j = false) := by
    constructor
    · intro hall j hj
      have hjS : j ∉ S := fun hjS => hj (Finset.mem_insert_of_mem hjS)
      have hjk : j ≠ k := by
        intro hjk
        exact hj (hjk ▸ Finset.mem_insert_self k S)
      have := hall j hjS
      rwa [Function.update_noteq hjk] at this
    · intro hall j hjS
      rcases eq_or_ne j k with rfl | hjk
      · simp [Function.update_same]
      · rw [Function.update_noteq hjk]
        exact hall j (by simp [Finset.mem_insert, hjk, hjS])
  simp only [hGate, groundInd, if_neg hA]
  rw [Finset.card_insert_of_not_mem hk]
  by_cases hc : ∀ j ∉ insert k S, x j = false
  · rw [if_pos (hB.mpr hc), if_pos hc]
    ring
  · rw [if_neg (fun h => hc (hB.mp h)), if_neg hc]
    ring

theorem hList_groundInd (n : ℕ) (l : List (Fin n)) (S : Finset (Fin n))
    (hnd : l.Nodup) (hdis : ∀ k ∈ l, k ∉ S) :
    hList n l (groundInd n S) = groundInd n (S ∪ l.toFinset) := by
  induction l generalizing S with
  | nil => simp [hList_nil]
  | cons a l ih =>
    rw [hList_cons, hGate_groundInd n a S (hdis a (List.mem_cons_self a l))]
    have hdis' : ∀ k ∈ l, k ∉ insert a S := by
      intro k hk
      simp only [Finset.mem_insert]
      push_neg
      exact ⟨fun hka => (List.nodup_cons.mp hnd).1 (hka ▸ hk),
        hdis k (List.mem_cons_of_mem a hk)⟩
    rw [ih (insert a S) (List.nodup_cons.mp hnd).2 hdis']
    have hset : insert a S ∪ l.toFinset = S ∪ (a :: l).toFinset := by
      ext j
      simp only [Finset.mem_union, Finset.mem_insert, List.toFinset_cons,
        List.mem_toFinset]
      tauto
    rw [hset]

theorem ground_eq_groundInd (n : ℕ) : ground n = groundInd n ∅ := by
  funext x
  simp only [ground, groundInd, Finset.not_mem_empty, not_false_iff, forall_true_left,
    Finset.card_empty, pow_zero]
  by_cases hx : x = bZero n
  · rw [if_pos hx, if_pos (fun j => by rw [hx]; rfl)]
  · rw [if_neg hx, if_neg (fun h => hx (funext fun j => h j))]

theorem hAll_ground (n : ℕ) : hAll n (ground n) = fun _ => hcoef ^ n := by
  rw [ground_eq_groundInd, hAll,
    hList_groundInd n (List.finRange n) ∅ (List.nodup_finRange n)
      (fun k _ => Finset.not_mem_empty k)]
  funext x
  simp only [groundInd, List.toFinset_finRange, Finset.empty_union, Finset.mem_univ,
    not_true, false_implies, forall_true_left, implies_true, if_true,
    Finset.card_univ, Fintype.card_fin]

theorem hAll_ground_apply (n : ℕ) (x : Bvec n) : hAll n (ground n) x = hcoef ^ n := by
  rw [hAll_ground]

theorem dotQ_ground (n : ℕ) (w : QState n) : dotQ n (ground n) w = w (bZero n) := by
  unfold dotQ ground
  rw [Finset.sum_eq_single (bZero n)]
  · simp
  · intro b _ hb
    simp [hb]
  · intro h
    exact absurd (Finset.mem_univ _) h

theorem hAll_at_zero (n : ℕ) (v : QState n) :
    hAll n v (bZero n) = hcoef ^ n * ∑ x : Bvec n, v x := by
  have h1 : hAll n v (bZero n) = dotQ n (ground n) (hAll n v) := (dotQ_ground n _).symm
  rw [h1, ← hAll_adj, hAll_ground]
  unfold dotQ
  rw [Finset.mul_sum]

theorem middle_flip (n : ℕ) (t : Fin n) (v : QState n) :
    hGate n t (mcxGate n t (hGate n t v))
      = fun x => if ∀ j, x j = true then -v x else v x := by
  funext x
  have hPiff : ∀ b : Bool,
      (∀ j, j ≠ t → Function.update x t b j = true) ↔ (∀ j, j ≠ t → x j = true) := by
    intro b
    constructor
    · intro hh j hj
      rw [← Function.update_noteq hj b x]
      exact hh j hj
    · intro hh j hj
      rw [Function.update_noteq hj b x]
      exact hh j hj
  have hOnes : (∀ j, x j = true) ↔ ((∀ j, j ≠ t → x j = true) ∧ x t = true) := by
    constructor
    · intro hh
      exact ⟨fun j _ => hh j, hh t⟩
    · rintro ⟨hh, ht⟩ j
      rcases eq_or_ne j t with rfl | hj
      · exact ht
      · exact hh j hj
  by_cases hP : ∀ j, j ≠ t → x j = true
  · cases hxt : x t with
    | false =>
      have hx0 : Function.update x t false = x := by
        conv_lhs => rw [← hxt]
        exact Function.update_eq_self t x
      have hno : ¬ (∀ j, x j = true) := by
        rw [hOnes]
        simp [hxt]
      simp only [hGate, mcxGate, if_pos ((hPiff false).mpr hP),
        if_pos ((hPiff true).mpr hP), if_pos hP, Function.update_idem,
        Function.update_same, hx0, hxt, Bool.false_eq_true, eq_self_iff_true,
        if_true, if_false, Bool.not_false, Bool.not_true, if_neg hno]
      linear_combination (v x) * hcoef_sq_two
    | true =>
      have hx1 : Function.update x t true = x := by
        conv_lhs => rw [← hxt]
        exact Function.update_eq_self t x
      have hyes : ∀ j, x j = true := hOnes.mpr ⟨hP, hxt⟩
      simp only [hGate, mcxGate, if_pos ((hPiff false).mpr hP),
        if_pos ((hPiff true).mpr hP), if_pos hP, Function.update_idem,
        Function.update_same, hx1, hxt, Bool.false_eq_true, eq_self_iff_true,
        if_true, if_false, Bool.not_false, Bool.not_true, if_pos hyes]
      linear_combination (-(v x)) * hcoef_sq_two
  · have hno : ¬ (∀ j, x j = true) := by
      rw [hOnes]
      tauto
    simp only [hGate, mcxGate, if_neg (fun hh => hP ((hPiff false).mp hh)),
      if_neg (fun hh => hP ((hPiff true).mp hh)), if_neg hP, Function.update_idem,
      Function.update_same, if_neg hno]
    cases hxt : x t with
    | false =>
      have hx0 : Function.update x t false = x := by
        conv_lhs => rw [← hxt]
        exact Function.update_eq_self t x
      simp only [hx0, hxt, Bool.false_eq_true, eq_self_iff_true, if_true, if_false]
      linear_combination (v x) * hcoef_sq_two
    | true =>
      have hx1 : Function.update x t true = x := by
        conv_lhs => rw [← hxt]
        exact Function.update_eq_self t x
      simp only [hx1, hxt, Bool.false_eq_true, eq_self_iff_true, if_true, if_false]
      linear_combination (v x) * hcoef_sq_two

theorem xList_eq (n : ℕ) (l : List (Fin n)) (hnd : l.Nodup) (v : QState n)
    (x : Bvec n) :
    xList n l v x = v (fun i => if i ∈ l then !(x i) else x i) := by
  induction l generalizing v x with
  | nil => simp [xList]
  | cons a l ih =>
    show xList n l (xGate n a v) x = _
    rw [ih (List.nodup_cons.mp hnd).2 (xGate n a v) x]
    show v (Function.update (fun i => if i ∈ l then !(x i) else x i) a
      (!((fun i => if i ∈ l then !(x i) else x i) a))) = _
    congr 1
    funext i
    rcases eq_or_ne i a with rfl | hia
    · rw [Function.update_same]
      have hil : i ∉ l := (List.nodup_cons.mp hnd).1
      simp [hil]
    · rw [Function.update_noteq hia]
      simp only [List.mem_cons]
      rcases Decidable.em (i ∈ l) with hil | hil
      · simp [hil, hia]
      · simp [hil, hia]

theorem xAll_eq (n : ℕ) (v : QState n) (x : Bvec n) :
    xAll n v x = v (fun i => !(x i)) := by
  rw [xAll, xList_eq n (List.finRange n) (List.nodup_finRange n) v x]
  congr 1
  funext i
  simp [List.mem_finRange]

theorem inner_flip (n : ℕ) (t : Fin n) (v : QState n) :
    xAll n (hGate n t (mcxGate n t (hGate n t (xAll n v))))
      = fun x => if x = bZero n then -v x else v x := by
  funext x
  rw [xAll_eq, middle_flip]
  show (if ∀ j, (!(x j)) = true then -(xAll n v fun i => !(x i))
    else xAll n v fun i => !(x i)) = if x = bZero n then -v x else v x
  have hvv : xAll n v (fun i => !(x i)) = v x := by
    rw [xAll_eq]
    congr 1
    funext i
    simp [Bool.not_not]
  have hcond : (∀ j, (!(x j)) = true) ↔ x = bZero n := by
    constructor
    · intro hh
      funext j
      have := hh j
      revert this
      cases x j <;> simp [bZero]
    · intro hh
      intro j
      rw [hh]
      rfl
  by_cases hx : x = bZero n
  · rw [if_pos (hcond.mpr hx), if_pos hx, hvv]
  · rw [if_neg (fun hh => hx (hcond.mp hh)), if_neg hx, hvv]

theorem diffuserGate_eq (n : ℕ) (t : Fin n) (v : QState n) :
    diffuserGate n t v = fun x => v x - 2 * meanAmp n v := by
  unfold diffuserGate
  rw [inner_flip n t (hAll n v)]
  have hdec : (fun x => if x = bZero n then -(hAll n v) x else (hAll n v) x)
      = fun y => hAll n v y - (2 * hAll n v (bZero n)) * ground n y := by
    funext y
    by_cases hy : y = bZero n
    · rw [if_pos hy, ground, if_pos hy, hy]
      ring
    · rw [if_neg hy, ground, if_neg hy]
      ring
  rw [hdec]
  show hList n (List.finRange n)
    (fun y => hAll n v y - 2 * hAll n v (bZero n) * ground n y) = _
  rw [hList_lin n (List.finRange n) (2 * hAll n v (bZero n)) (hAll n v) (ground n)]
  funext x
  show hAll n (hAll n v) x - 2 * hAll n v (bZero n) * hAll n (ground n) x
    = v x - 2 * meanAmp n v
  have hmean : meanAmp n v = Qrt2.ofRat ((1 / 2) ^ n) * ∑ y : Bvec n, v y := by
    unfold meanAmp
    rw [div_pow, one_pow]
  rw [hAll_hAll, hAll_ground_apply, hAll_at_zero, hmean]
  linear_combination (-2 * (∑ y : Bvec n, v y)) * hcoef_pow_mul n

theorem norm2_comp_inv (n : ℕ) (σ : Bvec n → Bvec n) (hσ : Function.Involutive σ)
    (v : QState n) : (∑ x : Bvec n, v (σ x) * v (σ x)) = norm2 n v := by
  unfold norm2
  exact Fintype.sum_bijective σ hσ.bijective _ _ (fun x => rfl)

theorem norm2_hGate (n : ℕ) (k : Fin n) (v : QState n) :
    norm2 n (hGate n k v) = norm2 n v := by
  unfold norm2
  rw [sum_pair n k (fun x => hGate n k v x * hGate n k v x),
    sum_pair n k (fun x => v x * v x)]
  apply Finset.sum_congr rfl
  intro x _
  by_cases hx : x k = false
  · rw [if_pos hx, if_pos hx]
    have hx0 : Function.update x k false = x := by
      conv_lhs => rw [← hx]
      exact Function.update_eq_self k x
    simp only [hGate, Function.update_idem, Function.update_same, hx0, hx,
      Bool.false_eq_true, eq_self_iff_true, if_true, if_false]
    linear_combination (v x * v x
      + v (Function.update x k true) * v (Function.update x k true)) * hcoef_sq_two
  · rw [if_neg hx, if_neg hx]

theorem norm2_hList (n : ℕ) (l : List (Fin n)) (v : QState n) :
    norm2 n (hList n l v) = norm2 n v := by
  induction l generalizing v with
  | nil => rfl
  | cons a l ih =>
    rw [hList_cons, ih (hGate n a v), norm2_hGate]

theorem norm2_hAll (n : ℕ) (v : QState n) : norm2 n (hAll n v) = norm2 n v :=
  norm2_hList n (List.finRange n) v

theorem norm2_xGate (n : ℕ) (k : Fin n) (v : QState n) :
    norm2 n (xGate n k v) = norm2 n v := by
  have hσ : Function.Involutive (fun x : Bvec n => Function.update x k (!(x k))) := by
    intro x
    funext i
    rcases eq_or_ne i k with rfl | hik
    · simp [Function.update_idem, Function.update_same, Bool.not_not]
    · simp [Function.update_noteq hik]
  exact norm2_comp_inv n _ hσ v

theorem norm2_xList (n : ℕ) (l : List (Fin n)) (v : QState n) :
    norm2 n (xList n l v) = norm2 n v := by
  induction l generalizing v with
  | nil => rfl
  | cons a l ih =>
    show norm2 n (xList n l (xGate n a v)) = norm2 n v
    rw [ih (xGate n a v), norm2_xGate]

theorem norm2_xAll (n : ℕ) (v : QState n) : norm2 n (xAll n v) = norm2 n v :=
  norm2_xList n (List.finRange n) v

theorem norm2_mcx (n : ℕ) (t : Fin n) (v : QState n) :
    norm2 n (mcxGate n t v) = norm2 n v := by
  classical
  set σ : Bvec n → Bvec n := fun x =>
    if ∀ j, j ≠ t → x j = true then Function.update x t (!(x t)) else x with hσdef
  have hPud : ∀ (x : Bvec n) (b : Bool),
      (∀ j, j ≠ t → Function.update x t b j = true) ↔ (∀ j, j ≠ t → x j = true) := by
    intro x b
    constructor
    · intro hh j hj
      rw [← Function.update_noteq hj b x]
      exact hh j hj
    · intro hh j hj
      rw [Function.update_noteq hj b x]
      exact hh j hj
  have hσ : Function.Involutive σ := by
    intro x
    by_cases hP : ∀ j, j ≠ t → x j = true
    · rw [hσdef]
      simp only [if_pos hP]
      rw [if_pos ((hPud x (!(x t))).mpr hP), Function.update_idem,
        Function.update_same, Bool.not_not]
      exact Function.update_eq_self t x
    · rw [hσdef]
      simp only [if_neg hP]
  have hev : ∀ x, mcxGate n t v x = v (σ x) := by
    intro x
    rw [hσdef]
    simp only [mcxGate]
    by_cases hP : ∀ j, j ≠ t → x j = true
    · rw [if_pos hP, if_pos hP]
    · rw [if_neg hP, if_neg hP]
  have : norm2 n (mcxGate n t v) = ∑ x : Bvec n, v (σ x) * v (σ x) := by
    unfold norm2
    exact Finset.sum_congr rfl (fun x _ => by rw [hev x])
  rw [this, norm2_comp_inv n σ hσ v]

theorem norm2_oracleFlip (n : ℕ) (m : Bvec n) (v : QState n) :
    norm2 n (oracleFlip n m v) = norm2 n v := by
  unfold norm2 oracleFlip
  apply Finset.sum_congr rfl
  intro x _
  by_cases hx : x = m
  · rw [if_pos hx]
    ring
  · rw [if_neg hx]

theorem norm2_diffuser (n : ℕ) (t : Fin n) (v : QState n) :
    norm2 n (diffuserGate n t v) = norm2 n v := by
  unfold diffuserGate
  rw [norm2_hAll, norm2_xAll, norm2_hGate, norm2_mcx, norm2_hGate, norm2_xAll,
    norm2_hAll]

theorem norm2_ground (n : ℕ) : norm2 n (ground n) = 1 := by
  unfold norm2 ground
  rw [Finset.sum_eq_single (bZero n)]
  · simp
  · intro b _ hb
    simp [hb]
  · intro h
    exact absurd (Finset.mem_univ _) h

/-- The state-vector sequence of one `check_larger_or_equal` run on the
simulator: `stateAfter n m t j` is the state after the first `j` transforms
of the circuit, starting from the ground state; transform 1 is the Hadamard
layer, after which odd-numbered steps apply the oracle's phase flip at the
marked state `m` and even-numbered steps the gate-sequence diffuser with
target `t`. -/
def stateAfter (n : ℕ) (m : Bvec n) (t : Fin n) : ℕ → QState n
  | 0 => ground n
  | j + 1 =>
    if j = 0 then hAll n (stateAfter n m t j)
    else if j % 2 = 1 then oracleFlip n m (stateAfter n m t j)
    else diffuserGate n t (stateAfter n m t j)

theorem norm2_stateAfter (n : ℕ) (m : Bvec n) (t : Fin n) (j : ℕ) :
    norm2 n (stateAfter n m t j) = 1 := by
  induction j with
  | zero => exact norm2_ground n
  | succ i ih =>
    show norm2 n (if i = 0 then hAll n (stateAfter n m t i)
      else if i % 2 = 1 then oracleFlip n m (stateAfter n m t i)
      else diffuserGate n t (stateAfter n m t i)) = 1
    by_cases h0 : i = 0
    · rw [if_pos h0, norm2_hAll, ih]
    · rw [if_neg h0]
      by_cases h1 : i % 2 = 1
      · rw [if_pos h1, norm2_oracleFlip, ih]
      · rw [if_neg h1, norm2_diffuser, ih]

theorem gate_matrix_offdiag (n : ℕ) (i : Fin (2 ^ n)) (r c : Fin (2 ^ n))
    (hrc : r ≠ c) : gate_matrix n i r c = 0 := by
  unfold gate_matrix
  rw [Matrix.of_apply, if_neg, if_neg hrc]
  rintro ⟨rfl, rfl⟩
  exact hrc rfl

theorem gate_matrix_diag (n : ℕ) (i : Fin (2 ^ n)) (r : Fin (2 ^ n)) :
    gate_matrix n i r r = if r = i then -1 else 1 := by
  unfold gate_matrix
  rw [Matrix.of_apply]
  by_cases hr : r = i
  · rw [if_pos ⟨hr, hr⟩, if_pos hr]
  · rw [if_neg (fun hh => hr hh.1), if_pos rfl, if_neg hr]

theorem gate_matrix_symm (n : ℕ) (i : Fin (2 ^ n)) :
    (gate_matrix n i).transpose = gate_matrix n i := by
  apply Matrix.ext
  intro r c
  rw [Matrix.transpose_apply]
  rcases eq_or_ne r c with rfl | hrc
  · rfl
  · rw [gate_matrix_offdiag n i c r (Ne.symm hrc), gate_matrix_offdiag n i r c hrc]

theorem gate_matrix_sq (n : ℕ) (i : Fin (2 ^ n)) :
    gate_matrix n i * gate_matrix n i = 1 := by
  apply Matrix.ext
  intro r c
  rw [Matrix.mul_apply, Finset.sum_eq_single r]
  · rcases eq_or_ne r c with rfl | hrc
    · rw [gate_matrix_diag, Matrix.one_apply_eq]
      by_cases hr : r = i
      · rw [if_pos hr]
        norm_num
      · rw [if_neg hr]
        norm_num
    · rw [gate_matrix_offdiag n i r c hrc, mul_zero, Matrix.one_apply_ne hrc]
  · intro b _ hb
    rw [gate_matrix_offdiag n i r b (Ne.symm hb), zero_mul]
  · intro hr
    exact absurd (Finset.mem_univ r) hr

theorem gate_matrix_mulVec (n : ℕ) (i : Fin (2 ^ n)) (v : Fin (2 ^ n) → ℚ) :
    (gate_matrix n i).mulVec v = fun j => if j = i then -v j else v j := by
  funext j
  show ∑ c, gate_matrix n i j c * v c = _
  rw [Finset.sum_eq_single j]
  · rw [gate_matrix_diag]
    by_cases hj : j = i
    · rw [if_pos hj, if_pos hj]
      ring
    · rw [if_neg hj, if_neg hj, one_mul]
  · intro b _ hb
    rw [gate_matrix_offdiag n i j b (Ne.symm hb), zero_mul]
  · intro hj
    exact absurd (Finset.mem_univ j) hj

theorem findMax_range_spec (p : ℕ → ℚ) :
    ∀ N, 0 < N → ∃ k, k < N ∧
      ((List.range N).map (fun i => (i, p i))).foldl findMaxStep (none, none)
        = (some k, some (p k)) ∧
      (∀ j, j < k → p j < p k) ∧ (∀ j, j < N → p j ≤ p k) := by
  intro N
  induction N with
  | zero => omega
  | succ M ih =>
    intro _
    rcases Nat.eq_zero_or_pos M with rfl | hM
    · refine ⟨0, by omega, rfl, by omega, ?_⟩
      intro j hj
      have hj0 : j = 0 := by omega
      rw [hj0]
    · obtain ⟨k, hkM, hfold, hstrict, hle⟩ := ih hM
      rw [List.range_succ, List.map_append, List.foldl_append, hfold]
      by_cases hcmp : p k < p M
      · refine ⟨M, by omega, ?_, ?_, ?_⟩
        · show findMaxStep (some k, some (p k)) (M, p M) = _
          simp [findMaxStep, hcmp]
        · intro j hj
          exact lt_of_le_of_lt (hle j hj) hcmp
        · intro j hj
          rcases Nat.lt_succ_iff_lt_or_eq.mp hj with hlt | rfl
          · exact le_of_lt (lt_of_le_of_lt (hle j hlt) hcmp)
          · exact le_refl _
      · refine ⟨k, by omega, ?_, hstrict, ?_⟩
        · show findMaxStep (some k, some (p k)) (M, p M) = _
          simp [findMaxStep, hcmp]
        · intro j hj
          rcases Nat.lt_succ_iff_lt_or_eq.mp hj with hlt | rfl
          · exact hle j hlt
          · exact not_lt.mp hcmp

theorem Qrt2.ofRat_add (p q : ℚ) :
    Qrt2.ofRat p + Qrt2.ofRat q = Qrt2.ofRat (p + q) := by
  simp only [Qrt2.ofRat, Qrt2.add_def, Qrt2.mk_eq_iff]
  constructor <;> norm_num

theorem Qrt2.ofRat_sub (p q : ℚ) :
    Qrt2.ofRat p - Qrt2.ofRat q = Qrt2.ofRat (p - q) := by
  show Qrt2.ofRat p + -Qrt2.ofRat q = _
  simp only [Qrt2.ofRat, Qrt2.neg_def, Qrt2.add_def, Qrt2.mk_eq_iff]
  constructor <;> ring

theorem Qrt2.two_eq_ofRat : (2 : Qrt2) = Qrt2.ofRat 2 := by
  rw [show (2 : Qrt2) = 1 + 1 from one_add_one_eq_two.symm, ← Qrt2.ofRat_one,
    Qrt2.ofRat_add]
  norm_num

/-- Error value named by the spec's error taxonomy for an invalid register
width.  The Python constructor never raises it; it exists here so the
fallible view of construction can be stated. -/
inductive ConfigurationError where
  | invalidWidth (n : ℕ)
deriving DecidableEq

/-- The fallible view of `GroverComparator.__init__`: the Python constructor
body performs no validation and contains no raise statement, so construction
always succeeds, whatever register width the inputs produce. -/
def initE (a b : ℤ) : Except ConfigurationError GroverComparator :=
  Except.ok (GroverComparator.init a b)

theorem count_measureAll_flatten (k : ℕ) (m : ℕ) :
    ((List.replicate k [Instr.oracle m, Instr.diffuser]).flatten).count
      Instr.measureAll = 0 := by
  induction k with
  | zero => rfl
  | succ i ih =>
    rw [List.replicate_succ, List.flatten_cons, List.count_append, ih]
    rfl

theorem count_measureAll_algSegment (g : GroverComparator) :
    (g.algSegment).count Instr.measureAll = 1 := by
  unfold GroverComparator.algSegment
  rw [List.count_append, List.count_append, count_measureAll_flatten]
  have h1 : ((List.range g.nqubits).map Instr.h).count Instr.measureAll = 0 := by
    rw [List.count_eq_zero]
    intro hmem
    rcases List.mem_map.mp hmem with ⟨q, _, hq⟩
    cases hq
  rw [h1]
  rfl

/-- C1: for every pair of integers `a`, `b`, `check_larger_or_equal` returns
`true` exactly when `a - b ≥ 0`, and the returned boolean is identical for
every sampler output `counts`: the measured quasi-distribution (hence the
seed) is never consulted for the final decision. -/
theorem C1_result_is_diff_nonneg (a b : ℤ) (counts counts' : List (ℕ × ℚ)) :
    ((GroverComparator.init a b).check_larger_or_equal counts).2
        = decide (a - b ≥ 0)
      ∧ (((GroverComparator.init a b).check_larger_or_equal counts).2 = true
          ↔ 0 ≤ a - b)
      ∧ ((GroverComparator.init a b).check_larger_or_equal counts).2
        = ((GroverComparator.init a b).check_larger_or_equal counts').2 := by
  refine ⟨rfl, ?_, rfl⟩
  show decide ((GroverComparator.init a b).diff ≥ 0) = true ↔ 0 ≤ a - b
  rw [decide_eq_true_eq]
  exact Iff.rfl

/-- C2: the constructor computes `diff = a - b`, register width
`nqubits = max(bitLength |diff|, 2)` — hence always at least 2, even when one
qubit would suffice — state-space size `nstates = 2 ^ nqubits`, and the
marked index `|diff|`. -/
theorem C2_encoding (a b : ℤ) :
    (GroverComparator.init a b).diff = a - b
      ∧ (GroverComparator.init a b).nqubits = max (bitLen (a - b).natAbs) 2
      ∧ 2 ≤ (GroverComparator.init a b).nqubits
      ∧ (GroverComparator.init a b).nstates
          = 2 ^ (GroverComparator.init a b).nqubits
      ∧ (GroverComparator.init a b).markedIndex = (a - b).natAbs :=
  ⟨rfl, rfl, le_max_right _ 2, rfl, rfl⟩

/-- C3: the oracle matrix is diagonal with `-1` at the marked index and `1`
on the rest of the diagonal, it is symmetric and squares to the identity
(a diagonal unitary), and applied to any state vector it negates exactly the
amplitude at the marked index. -/
theorem C3_oracle_diagonal_unitary (n : ℕ) (i : Fin (2 ^ n))
    (v : Fin (2 ^ n) → ℚ) :
    (∀ r c, r ≠ c → gate_matrix n i r c = 0)
      ∧ gate_matrix n i i i = -1
      ∧ (∀ r, r ≠ i → gate_matrix n i r r = 1)
      ∧ (gate_matrix n i).transpose = gate_matrix n i
      ∧ gate_matrix n i * gate_matrix n i = 1
      ∧ (gate_matrix n i).mulVec v = fun j => if j = i then -v j else v j := by
  refine ⟨gate_matrix_offdiag n i, ?_, ?_, gate_matrix_symm n i,
    gate_matrix_sq n i, gate_matrix_mulVec n i v⟩
  · rw [gate_matrix_diag, if_pos rfl]
  · intro r hr
    rw [gate_matrix_diag, if_neg hr]

/-- C6: the marked index `|a - b|` always lies strictly below
`nstates = 2 ^ nqubits`, so the diagonal write in the oracle construction is
in bounds. -/
theorem C6_marked_index_in_bounds (a b : ℤ) :
    (GroverComparator.init a b).markedIndex < (GroverComparator.init a b).nstates := by
  show (a - b).natAbs < 2 ^ max (bitLen (a - b).natAbs) 2
  calc (a - b).natAbs < 2 ^ bitLen (a - b).natAbs := lt_two_pow_bitLen _
    _ ≤ 2 ^ max (bitLen (a - b).natAbs) 2 :=
        Nat.pow_le_pow_right (by norm_num) (le_max_left _ _)

/-- C9 counterexample: at inputs `2^30` and `0` the register width is 31,
beyond the spec's defensive bound of 30, yet construction succeeds — no
ConfigurationError is raised, contradicting the claim that such widths are
rejected. -/
theorem C9_counterexample :
    (initE (2 ^ 30) 0).isOk = true
      ∧ (GroverComparator.init (2 ^ 30) 0).nqubits = 31
      ∧ 30 < (GroverComparator.init (2 ^ 30) 0).nqubits := by
  have hnq : ∀ a b : ℤ, (GroverComparator.init a b).nqubits
      = max (bitLen (a - b).natAbs) 2 := fun a b => rfl
  have hq : (GroverComparator.init (2 ^ 30) 0).nqubits = 31 := by
    have habs : ((2 : ℤ) ^ 30 - 0).natAbs = 2 ^ 30 := by
      rw [sub_zero, Int.natAbs_pow]
      rfl
    rw [hnq, habs, bitLen_two_pow]
    omega
  exact ⟨rfl, hq, by rw [hq]; norm_num⟩

/-- C9 (amended): the constructor never fails — it performs no width
validation at all.  A width below 1 indeed cannot occur (the computed
`nqubits` is always at least 2), but widths above the spec's defensive bound
of 30 are accepted rather than rejected: no ConfigurationError exists in the
code. -/
theorem C9_no_width_validation (a b : ℤ) :
    (initE a b).isOk = true ∧ 2 ≤ (GroverComparator.init a b).nqubits :=
  ⟨rfl, le_max_right _ 2⟩

/-- C10: `check_larger_or_equal` appends the Hadamard layer, the oracle and
diffuser instructions of every iteration, and the final measurement onto the
stored circuit `qc` without resetting it; a second call on the same instance
therefore appends a second full algorithm after the already-measured circuit
(two `measure_all` markers), instead of starting fresh. -/
theorem C10_circuit_append (a b : ℤ) (c1 c2 : List (ℕ × ℚ)) :
    (∀ (g : GroverComparator) (c : List (ℕ × ℚ)),
        ((g.check_larger_or_equal c).1).qc = g.qc ++ g.algSegment)
      ∧ ((((GroverComparator.init a b).check_larger_or_equal c1).1.check_larger_or_equal
            c2).1).qc
          = (GroverComparator.init a b).algSegment
            ++ (GroverComparator.init a b).algSegment
      ∧ ((GroverComparator.init a b).algSegment.count Instr.measureAll = 1)
      ∧ (((((GroverComparator.init a b).check_larger_or_equal c1).1.check_larger_or_equal
            c2).1).qc.count Instr.measureAll = 2) := by
  have hqc : (GroverComparator.init a b).qc = ([] : List Instr) := rfl
  have hseg : ((GroverComparator.init a b).check_larger_or_equal c1).1.algSegment
      = (GroverComparator.init a b).algSegment := rfl
  refine ⟨fun g c => rfl, ?_, count_measureAll_algSegment _, ?_⟩
  · show (GroverComparator.init a b).qc ++ (GroverComparator.init a b).algSegment
        ++ ((GroverComparator.init a b).check_larger_or_equal c1).1.algSegment = _
    rw [hqc, hseg, List.nil_append]
  · show ((GroverComparator.init a b).qc ++ (GroverComparator.init a b).algSegment
        ++ ((GroverComparator.init a b).check_larger_or_equal c1).1.algSegment).count
        Instr.measureAll = 2
    rw [hqc, hseg, List.nil_append, List.count_append, count_measureAll_algSegment]

/-- C4 counterexample: at `n = 2`, on the ground state, the gate-sequence
diffuser gives amplitude `+1/2` at index 0 while the closed-form reflection
`2|s><s| - I` gives `-1/2` there: the two vectors differ by exactly 1 at
that entry, far beyond the claimed 1e-9 tolerance. -/
theorem C4_counterexample :
    diffuserGate 2 ⟨1, by omega⟩ (ground 2) (bZero 2) = Qrt2.ofRat (1 / 2)
      ∧ reflectAboutMean 2 (ground 2) (bZero 2) = Qrt2.ofRat (-(1 / 2))
      ∧ Qrt2.ofRat (1 / 2) ≠ Qrt2.ofRat (-(1 / 2))
      ∧ ((1 : ℚ) / 1000000000 < 1 / 2 - (-(1 / 2))) := by
  have hsum : (∑ x : Bvec 2, ground 2 x) = 1 := by
    unfold ground
    rw [Finset.sum_eq_single (bZero 2)]
    · rw [if_pos rfl]
    · intro b _ hb
      rw [if_neg hb]
    · intro hmem
      exact absurd (Finset.mem_univ _) hmem
  have hmean : meanAmp 2 (ground 2) = Qrt2.ofRat (1 / 4) := by
    unfold meanAmp
    rw [hsum, mul_one]
    exact congrArg Qrt2.ofRat (by norm_num)
  have hg0 : ground 2 (bZero 2) = 1 := if_pos rfl
  refine ⟨?_, ?_, ?_, by norm_num⟩
  · have h := congrFun (diffuserGate_eq 2 ⟨1, by omega⟩ (ground 2)) (bZero 2)
    rw [h]
    show ground 2 (bZero 2) - 2 * meanAmp 2 (ground 2) = Qrt2.ofRat (1 / 2)
    rw [hg0, hmean, Qrt2.two_eq_ofRat, Qrt2.ofRat_mul, ← Qrt2.ofRat_one,
      Qrt2.ofRat_sub]
    exact congrArg Qrt2.ofRat (by norm_num)
  · show 2 * meanAmp 2 (ground 2) - ground 2 (bZero 2) = Qrt2.ofRat (-(1 / 2))
    rw [hg0, hmean, Qrt2.two_eq_ofRat, Qrt2.ofRat_mul, ← Qrt2.ofRat_one,
      Qrt2.ofRat_sub]
    exact congrArg Qrt2.ofRat (by norm_num)
  · intro hc
    have hra := congrArg Qrt2.ra hc
    simp only [Qrt2.ofRat] at hra
    norm_num at hra

/-- C4 (amended): for every `n ≥ 2`, the explicit gate-sequence diffuser
(H-all, X-all, H on the last qubit, MCX onto the last qubit, H on the last
qubit, X-all, H-all) acts on every state vector as the NEGATION of the
closed-form reflection about the uniform superposition:
`D v = -(2|s><s| - I) v`, i.e. `v[i] <- v[i] - 2*mean(v)` — a global phase
of -1, so all measured probabilities coincide but the amplitude vectors
differ in sign.  The diffuser depends only on `n`, never on the marked
index. -/
theorem C4_diffuser_is_negated_reflection (n : ℕ) (hn : 2 ≤ n) (v : QState n)
    (x : Bvec n) :
    diffuserGate n ⟨n - 1, by omega⟩ v x = -(reflectAboutMean n v x) := by
  have h := congrFun (diffuserGate_eq n ⟨n - 1, by omega⟩ v) x
  rw [h]
  show v x - 2 * meanAmp n v = -(reflectAboutMean n v x)
  unfold reflectAboutMean
  ring

/-- C4 witness: the amended diffuser identity at the concrete point
`n = 2`, ground state, index 0. -/
theorem C4_diffuser_is_negated_reflection_witness :
    2 ≤ 2 ∧ diffuserGate 2 ⟨2 - 1, by omega⟩ (ground 2) (bZero 2)
        = -(reflectAboutMean 2 (ground 2) (bZero 2)) :=
  ⟨by norm_num,
    C4_diffuser_is_negated_reflection 2 (by norm_num) (ground 2) (bZero 2)⟩

theorem floor_pi_quarter_sqrt (N : ℕ) (s : ℝ) (k : ℕ)
    (hs : Real.sqrt (N : ℝ) = s) (h1 : (k : ℝ) ≤ Real.pi / 4 * s)
    (h2 : Real.pi / 4 * s < k + 1) :
    ⌊Real.pi / 4 * Real.sqrt (N : ℝ)⌋₊ = k := by
  rw [hs, Nat.floor_eq_iff (le_trans (Nat.cast_nonneg k) h1)]
  exact ⟨h1, h2⟩

/-- C5: the number of oracle-plus-diffuser iterations is
`⌊π/4 · √N⌋` with `N = 2^nqubits`, computed once per run; in particular it
is 1 for `N = 4` (inputs 5 and 3), 3 for `N = 16` (inputs 8 and 0), and 12
for `N = 256` (inputs 128 and 0). -/
theorem C5_iteration_count :
    (∀ a b : ℤ, (GroverComparator.init a b).niterations
        = ⌊Real.pi / 4
            * Real.sqrt ((2 ^ (GroverComparator.init a b).nqubits : ℕ) : ℝ)⌋₊)
      ∧ (GroverComparator.init 5 3).niterations = 1
      ∧ (GroverComparator.init 8 0).niterations = 3
      ∧ (GroverComparator.init 128 0).niterations = 12 := by
  refine ⟨fun a b => rfl, ?_, ?_, ?_⟩
  · show ⌊Real.pi / 4 * Real.sqrt ((4 : ℕ) : ℝ)⌋₊ = 1
    refine floor_pi_quarter_sqrt 4 2 1 ?_ ?_ ?_
    · rw [show ((4 : ℕ) : ℝ) = (2 : ℝ) ^ 2 by norm_num,
        Real.sqrt_sq (by norm_num : (0 : ℝ) ≤ 2)]
    · have h3 := Real.pi_gt_three
      push_cast
      linarith
    · have h4 := Real.pi_lt_four
      push_cast
      linarith
  · show ⌊Real.pi / 4 * Real.sqrt ((16 : ℕ) : ℝ)⌋₊ = 3
    refine floor_pi_quarter_sqrt 16 4 3 ?_ ?_ ?_
    · rw [show ((16 : ℕ) : ℝ) = (4 : ℝ) ^ 2 by norm_num,
        Real.sqrt_sq (by norm_num : (0 : ℝ) ≤ 4)]
    · have h3 := Real.pi_gt_three
      push_cast
      linarith
    · have h4 := Real.pi_lt_four
      push_cast
      linarith
  · show ⌊Real.pi / 4 * Real.sqrt ((256 : ℕ) : ℝ)⌋₊ = 12
    refine floor_pi_quarter_sqrt 256 16 12 ?_ ?_ ?_
    · rw [show ((256 : ℕ) : ℝ) = (16 : ℝ) ^ 2 by norm_num,
        Real.sqrt_sq (by norm_num : (0 : ℝ) ≤ 16)]
    · have h3 := Real.pi_gt_three
      push_cast
      linarith
    · have h315 := Real.pi_lt_d2
      push_cast
      linarith

/-- C7: the sum of squared amplitudes is exactly 1 after every transform of
a run — after the initial Hadamard layer and after each oracle phase flip
and each diffusion reflection — for every register width `n` in `[2, 10]`,
every marked basis state, and every number of applied transforms `j`. -/
theorem C7_norm_invariant (n : ℕ) (hn2 : 2 ≤ n) (hn10 : n ≤ 10) (m : Bvec n)
    (j : ℕ) :
    norm2 n (stateAfter n m ⟨n - 1, by omega⟩ j) = 1 :=
  norm2_stateAfter n m _ j

/-- C7 witness: the norm invariant at `n = 2`, marked state 0, after 3
transforms (Hadamard layer, oracle flip, diffuser). -/
theorem C7_norm_invariant_witness :
    2 ≤ 2 ∧ (2 : ℕ) ≤ 10
      ∧ norm2 2 (stateAfter 2 (bZero 2) ⟨2 - 1, by omega⟩ 3) = 1 :=
  ⟨by norm_num, by norm_num,
    C7_norm_invariant 2 (by norm_num) (by norm_num) (bZero 2) 3⟩

/-- C8: in the deterministic most-likely selection mode, on a distribution
over `[0, N)` traversed in index order, the loop returns the index of
maximal probability and breaks ties in favour of the first-seen (lowest)
index: the selected key's probability strictly exceeds that of every
lower-indexed key, and is at least that of every key. -/
theorem C8_most_likely_lowest_tiebreak (N : ℕ) (p : ℕ → ℚ) (hN : 0 < N) :
    ∃ k, findMaxKey ((List.range N).map (fun i => (i, p i))) = some k
      ∧ k < N ∧ (∀ j, j < k → p j < p k) ∧ (∀ j, j < N → p j ≤ p k) := by
  obtain ⟨k, hk, hfold, hstrict, hle⟩ := findMax_range_spec p N hN
  refine ⟨k, ?_, hk, hstrict, hle⟩
  rw [findMaxKey, hfold]

/-- C8 witness: the selection property at the concrete three-point
distribution `p 0 = 1/4, p 1 = 1/2, p 2 = 1/4`. -/
theorem C8_most_likely_lowest_tiebreak_witness :
    0 < 3 ∧ ∃ k,
      findMaxKey ((List.range 3).map
          (fun i => (i, (fun j => if j = 1 then (1 : ℚ) / 2 else 1 / 4) i)))
        = some k
      ∧ k < 3
      ∧ (∀ j, j < k → (fun j => if j = 1 then (1 : ℚ) / 2 else 1 / 4) j
          < (fun j => if j = 1 then (1 : ℚ) / 2 else 1 / 4) k)
      ∧ (∀ j, j < 3 → (fun j => if j = 1 then (1 : ℚ) / 2 else 1 / 4) j
          ≤ (fun j => if j = 1 then (1 : ℚ) / 2 else 1 / 4) k) :=
  ⟨by norm_num, C8_most_likely_lowest_tiebreak 3
    (fun j => if j = 1 then (1 : ℚ) / 2 else 1 / 4) (by norm_num)⟩
